import Mathlib

/-!
Verification of the alsein-parsers combinator engine: the error algebra
(`Error`, `range`, `similarity`, the sequential and alternative combination
operators of `parsers.rs`), the primitive combinators (`single`, sequence,
alternative, map, discard), the public entry point `Parser.parse`, and the
arena registry (`Pool` of `pool.rs`).

Modelling conventions:
* `f64` similarity scores are modelled as exact rationals (`ℚ`); none of the
  verified statements depends on rounding, and the concrete counterexample
  values (small integers) are exact in `f64` as well.
* Rust panics (out-of-range slice indexing, `unwrap` on `None`) are modelled
  by `Option`: `none` is a panic, propagated by every caller.
* `Range<usize>` is a pair `(start, stop) : Nat × Nat`; its `len()` is
  `stop - start` (truncated subtraction, matching `ExactSizeIterator` for
  `Range<usize>`, whose length is `0` when `stop ≤ start`).
* Rust's `Iterator::max_by` keeps the *last* of several equally-maximal
  elements (`cmp::max_by` returns its second argument on `Equal`); the fold
  in `maxBySim` reproduces this exactly.
* In `ℚ` a division by zero returns `0` where `f64` returns an infinity;
  the only place this matters (an `Add` node whose computed span is empty)
  is excluded by hypothesis wherever a bound on `similarity` is claimed.
-/

namespace Parsers

/-- The `Error` enum of `parsers.rs`: `Single(f64, usize)`, `Add(Vec<Error>)`,
`Or(Vec<Error>)`, `Succeed(Range<usize>)`, `Hinted(Box<Error>, String)`. -/
inductive Error where
  | Single : ℚ → Nat → Error
  | Add : List Error → Error
  | Or : List Error → Error
  | Succeed : Nat → Nat → Error
  | Hinted : Error → String → Error
deriving Repr

/-- A computed (range, similarity) pair for one error node. -/
abbrev RS := (Nat × Nat) × ℚ

/-- The fold underlying `l.iter().max_by(|x, y| x.similarity()
.partial_cmp(&y.similarity()).unwrap())`: `Iterator::max_by` is a left fold
with `cmp::max_by`, which keeps the accumulator only when it compares
strictly `Greater`, so the *last* maximal element wins a tie. -/
def maxBySim (acc : RS) : List RS → RS
  | [] => acc
  | x :: xs => maxBySim (if x.2 < acc.2 then acc else x) xs

mutual
/-- `Error::range` and `Error::similarity` computed together (they are
mutually recursive in the source: the `Or` branch of `range` ranks children
by `similarity`, and the `Add` branch of `similarity` divides by the length
of the node's own `range`).  First component: `range` as `(start, stop)`;
second: `similarity`.  The source panics on an empty `Add` (`l[0]`) or empty
`Or` (`unwrap` on `max_by` of an empty iterator); those cases return a
default here and every theorem that touches them assumes non-emptiness. -/
def Error.eval : Error → RS
  | .Single s pos => ((pos, pos + 1), s)
  | .Add l =>
    let rs := Error.evalList l
    let lo := (rs.headD ((0, 0), 0)).1.1
    let hi := (rs.getLastD ((0, 0), 0)).1.2
    ((lo, hi), (rs.map Prod.snd).sum / ((hi - lo : Nat) : ℚ))
  | .Or [] => ((0, 0), 0)
  | .Or (x :: xs) =>
    let rx := Error.eval x
    let rxs := Error.evalList xs
    ((maxBySim rx rxs).1, rxs.foldl (fun a y => max a y.2) rx.2)
  | .Succeed a b => ((a, b), 1)
  | .Hinted e _ => Error.eval e

/-- `Error.eval` mapped over a child list. -/
def Error.evalList : List Error → List RS
  | [] => []
  | e :: l => Error.eval e :: Error.evalList l
end

/-- `Error::range`. -/
def Error.range (e : Error) : Nat × Nat := e.eval.1

/-- `Error::similarity`. -/
def Error.similarity (e : Error) : ℚ := e.eval.2

/-- `impl Add for Error` (`e1 + e2`): flatten `Add` lists instead of
nesting. -/
def Error.add : Error → Error → Error
  | .Add l1, .Add l2 => .Add (l1 ++ l2)
  | .Add l1, e2 => .Add (l1 ++ [e2])
  | e1, .Add l2 => .Add (e1 :: l2)
  | e1, e2 => .Add [e1, e2]

/-- `impl BitOr for Error` (`e1 | e2`): flatten `Or` lists instead of
nesting. -/
def Error.or : Error → Error → Error
  | .Or l1, .Or l2 => .Or (l1 ++ l2)
  | .Or l1, e2 => .Or (l1 ++ [e2])
  | e1, .Or l2 => .Or (e1 :: l2)
  | e1, e2 => .Or [e1, e2]

/-- Top-level operand list of the sequential combination: an `Add` node
contributes its child list, anything else is a singleton. -/
def Error.toAddList : Error → List Error
  | .Add l => l
  | e => [e]

/-- Top-level operand list of the alternative combination. -/
def Error.toOrList : Error → List Error
  | .Or l => l
  | e => [e]

/-- Whether an error is an `Add` (`Sequence`) node. -/
def Error.isAdd : Error → Prop
  | .Add _ => True
  | _ => False

instance : DecidablePred Error.isAdd := fun e => by
  cases e <;> simp [Error.isAdd] <;> infer_instance

/-- Whether an error is an `Or` (`Alternative`) node. -/
def Error.isOr : Error → Prop
  | .Or _ => True
  | _ => False

instance : DecidablePred Error.isOr := fun e => by
  cases e <;> simp [Error.isOr] <;> infer_instance

/-- `ParserResult<O>` of `parsers.rs`: `none` models a panic, `some` a normal
`Result<(O, usize), Error>`. -/
abbrev ParserResult (O : Type) := Option (Except Error (O × Nat))

/-- The `RawParser` trait's `parse` method, as a function of the input view
(a `Set` with element type `α`, modelled as a list) and a start offset. -/
def RawParser (α O : Type) : Type := List α → Nat → ParserResult O

/-- `<[T] as Set>::get` of `set.rs`: `&self[idx]`, which panics (`none`) when
`idx` is out of range. -/
def Set.get (l : List α) (idx : Nat) : Option α := l[idx]?

/-- `ParserContext::single(value)`: compares `&value == input.get(start)`
(no bounds check — out of range the slice index panics), consuming one
element on a match and failing with `Single(1.0, start)` on a mismatch. -/
def ParserContext.single [DecidableEq α] (value : α) : RawParser α α :=
  fun input start =>
    match Set.get input start with
    | none => none
    | some x =>
      if value = x then some (.ok (value, start + 1)) else some (.error (.Single 1 start))

/-- `impl RawParser for Or` (the `p1 | p2` combinator): try `p1`; on failure
try `p2` from the same start offset; if both fail, combine the errors with
`e1 | e2`. -/
def Or.parse (p1 p2 : RawParser α O) : RawParser α O :=
  fun input start =>
    match p1 input start with
    | none => none
    | some (.ok r) => some (.ok r)
    | some (.error e1) =>
      match p2 input start with
      | none => none
      | some (.ok r) => some (.ok r)
      | some (.error e2) => some (.error (e1.or e2))

/-- `impl RawParser for AddPP` (the `p1 + p2` combinator): run `p1`; on
success run `p2` from `end1` (pairing values on success, prefixing
`Succeed(start..end1)` on `p2` failure); on `p1` failure speculatively run
`p2` from `e1.range().end` and fold its outcome into the error. -/
def AddPP.parse (p1 : RawParser α O1) (p2 : RawParser α O2) : RawParser α (O1 × O2) :=
  fun input start =>
    match p1 input start with
    | none => none
    | some (.ok (r1, end1)) =>
      match p2 input end1 with
      | none => none
      | some (.ok (r2, end2)) => some (.ok ((r1, r2), end2))
      | some (.error e2) => some (.error ((Error.Succeed start end1).add e2))
    | some (.error e1) =>
      match p2 input e1.range.2 with
      | none => none
      | some (.ok (_, e)) => some (.error (e1.add (.Succeed e1.range.2 e)))
      | some (.error e2) => some (.error (e1.add e2))

/-- `Parser::map`: apply `f` to the value on success, keep the offset,
propagate errors (and panics) unchanged. -/
def Parser.map (p : RawParser α O) (f : O → T) : RawParser α T :=
  fun input start => (p input start).map (fun r => r.map (fun v => (f v.1, v.2)))

/-- `impl RawParser for Discard` (the `!p` matcher): keep the offset, drop
the value. -/
def Discard.parse (p : RawParser α O) : RawParser α Unit :=
  fun input start => (p input start).map (fun r => r.map (fun v => ((), v.2)))

/-- `Parser::parse`: invoke the raw parser at start offset `0` and drop the
final offset on success (`Ok(self.raw.parse(&input, 0)?.0)`). -/
def Parser.parse (p : RawParser α O) (input : List α) : Option (Except Error O) :=
  (p input 0).map (fun r => r.map Prod.fst)

/-- The parsing contract's monotonicity clause: a successful parse never
moves the offset backwards (`new_offset >= start_offset`). -/
def Progresses (p : RawParser α O) : Prop :=
  ∀ input start v e, p input start = some (.ok (v, e)) → start ≤ e

/-- The `Pool` registry of `pool.rs`: the `HashMap<(usize, usize), unsafe fn>`
from stored-pointer keys to destructor entries, as an association list whose
keys are unique (first component: the stored pointer of an acquired object;
second component: a tag standing for its typed drop function). -/
abbrev Pool := List (Nat × Nat)

/-- The keys whose objects the pool destroys at teardown: `impl Drop for
Pool` iterates every registered entry and invokes its destructor once. -/
def Pool.teardown (p : Pool) : List Nat := p.map Prod.fst

/-- `Pool::add`: `HashMap::insert` of the stored pointer (replacing any
stale entry with the same key, as `insert` does). -/
def Pool.add (p : Pool) (a d : Nat) : Pool := (a, d) :: p.filter (fun x => x.1 ≠ a)

/-- `Pool::remove`: `HashMap::remove`; `some` means the entry was found, the
object is reboxed and ownership returns to the caller; `none` means the key
was not registered and nothing happens. -/
def Pool.remove (p : Pool) (a : Nat) : Option Nat × Pool :=
  ((p.find? (fun x => x.1 = a)).map Prod.snd, p.filter (fun x => x.1 ≠ a))

/-- One arena operation: `Pool::add` of a fresh stored pointer with its drop
function, or `Pool::remove` of a stored pointer. -/
inductive Op where
  | acquire : Nat → Nat → Op
  | release : Nat → Op
deriving Repr, DecidableEq

/-- Run a sequence of arena operations against a registry. -/
def runOps : Pool → List Op → Pool
  | p, [] => p
  | p, .acquire a d :: ops => runOps (Pool.add p a d) ops
  | p, .release a :: ops => runOps (Pool.remove p a).2 ops

/-- Well-formed errors: `Single` scores lie in `[0,1]`, `Succeed` spans are
non-empty, composite nodes are non-empty, and the children of an `Add` node
appear in source order with non-overlapping spans (the spec: "children are
assumed already ordered by the construction process"). -/
inductive Error.WF : Error → Prop where
  | single {s : ℚ} {pos : Nat} : 0 ≤ s → s ≤ 1 → Error.WF (.Single s pos)
  | succeed {a b : Nat} : a < b → Error.WF (.Succeed a b)
  | add {l : List Error} : l ≠ [] → (∀ e ∈ l, Error.WF e) →
      l.Chain' (fun x y => x.range.2 ≤ y.range.1) → Error.WF (.Add l)
  | or {l : List Error} : l ≠ [] → (∀ e ∈ l, Error.WF e) → Error.WF (.Or l)
  | hinted {e : Error} {s : String} : Error.WF e → Error.WF (.Hinted e s)

/-- The maximal similarity among a list of children (the value computed by
the `Or` branch of `Error::similarity`); `0` for an empty list. -/
def maxSimOf : List Error → ℚ
  | [] => 0
  | x :: xs => (xs.map Error.similarity).foldl max x.similarity

/-- The *last* child attaining the maximal similarity — the child whose
range the `Or` branch of `Error::range` reports. -/
def lastMaxChild (l : List Error) : Option Error :=
  (l.filter (fun e => e.similarity = maxSimOf l)).getLast?

lemma Error.evalList_eq_map (l : List Error) : Error.evalList l = l.map Error.eval := by
  induction l with
  | nil => rfl
  | cons e l ih => simp [Error.evalList, ih]

@[simp] lemma Error.range_single (s : ℚ) (pos : Nat) :
    (Error.Single s pos).range = (pos, pos + 1) := rfl

@[simp] lemma Error.similarity_single (s : ℚ) (pos : Nat) :
    (Error.Single s pos).similarity = s := rfl

@[simp] lemma Error.range_succeed (a b : Nat) : (Error.Succeed a b).range = (a, b) := rfl

@[simp] lemma Error.similarity_succeed (a b : Nat) : (Error.Succeed a b).similarity = 1 := rfl

@[simp] lemma Error.range_hinted (e : Error) (s : String) :
    (Error.Hinted e s).range = e.range := by
  simp [Error.range, Error.eval]

@[simp] lemma Error.similarity_hinted (e : Error) (s : String) :
    (Error.Hinted e s).similarity = e.similarity := by
  simp [Error.similarity, Error.eval]

/-- Source equation `Error::range` for `Add`:
`l[0].range().start..l[l.len() - 1].range().end`. -/
lemma Error.range_add (l : List Error) (h : l ≠ []) :
    (Error.Add l).range = ((l.head h).range.1, (l.getLast h).range.2) := by
  simp [Error.range, Error.eval, Error.evalList_eq_map, List.getLastD_eq_getLast?,
    List.headD_eq_head?, List.head?_map, List.getLast?_map,
    List.getLast?_eq_getLast _ h, List.head?_eq_head h]

/-- Source equation `Error::similarity` for `Add`: the sum of the children's
similarities divided by `self.range().len()`. -/
lemma Error.similarity_add (l : List Error) :
    (Error.Add l).similarity =
      (l.map Error.similarity).sum /
        (((Error.Add l).range.2 - (Error.Add l).range.1 : Nat) : ℚ) := by
  simp only [Error.similarity, Error.range, Error.eval, Error.evalList_eq_map, List.map_map]
  rfl

/-- Source equation `Error::similarity` for `Or`: the maximum of the
children's similarities (`max_by` over the mapped iterator). -/
lemma Error.similarity_or (x : Error) (xs : List Error) :
    (Error.Or (x :: xs)).similarity = (xs.map Error.similarity).foldl max x.similarity := by
  simp only [Error.similarity, Error.eval, Error.evalList_eq_map, List.foldl_map]

/-- Source equation `Error::range` for `Or`: the range of the child picked by
`max_by` on similarity. -/
lemma Error.range_or (x : Error) (xs : List Error) :
    (Error.Or (x :: xs)).range = (maxBySim x.eval (xs.map Error.eval)).1 := by
  simp [Error.range, Error.eval, Error.evalList_eq_map]

lemma le_foldl_max (b : ℚ) (l : List ℚ) : b ≤ l.foldl max b := by
  induction l generalizing b with
  | nil => simp
  | cons x xs ih => exact le_trans (le_max_left b x) (ih _)

lemma foldl_max_le {c : ℚ} (b : ℚ) (l : List ℚ) (hb : b ≤ c) (hl : ∀ x ∈ l, x ≤ c) :
    l.foldl max b ≤ c := by
  induction l generalizing b with
  | nil => simpa
  | cons x xs ih =>
    simp only [List.foldl_cons]
    exact ih _ (max_le hb (hl x (by simp))) (fun y hy => hl y (by simp [hy]))

lemma maxBySim_mem (acc : RS) (xs : List RS) : maxBySim acc xs ∈ acc :: xs := by
  induction xs generalizing acc with
  | nil => simp [maxBySim]
  | cons x xs ih =>
    simp only [maxBySim]
    by_cases hc : x.2 < acc.2
    · rw [if_pos hc]
      rcases List.mem_cons.1 (ih acc) with h | h
      · simp [h]
      · simp [h]
    · rw [if_neg hc]
      rcases List.mem_cons.1 (ih x) with h | h
      · simp [h]
      · simp [h]

lemma maxBySim_snd (acc : RS) (xs : List RS) :
    (maxBySim acc xs).2 = (xs.map Prod.snd).foldl max acc.2 := by
  induction xs generalizing acc with
  | nil => rfl
  | cons x xs ih =>
    simp only [maxBySim, List.map_cons, List.foldl_cons]
    rw [ih]
    congr 1
    by_cases hc : x.2 < acc.2
    · rw [if_pos hc, max_eq_left hc.le]
    · rw [if_neg hc, max_eq_right (not_lt.1 hc)]

/-- `maxBySim` picks the *last* element (accumulator included) whose score
attains the maximum. -/
lemma maxBySim_eq_getLast_filter (acc : RS) (xs : List RS) :
    ((acc :: xs).filter
        (fun y => y.2 = (xs.map Prod.snd).foldl max acc.2)).getLast? =
      some (maxBySim acc xs) := by
  induction xs generalizing acc with
  | nil => simp [maxBySim]
  | cons x xs ih =>
    have h := ih (if x.2 < acc.2 then acc else x)
    by_cases hc : x.2 < acc.2
    · rw [if_pos hc] at h
      have hm : max acc.2 x.2 = acc.2 := max_eq_left hc.le
      have hxm : ¬ (x.2 = (xs.map Prod.snd).foldl max acc.2) := by
        have := le_foldl_max acc.2 (xs.map Prod.snd)
        intro hx
        exact absurd (hx ▸ this) (not_le.2 hc)
      simp only [maxBySim, if_pos hc, List.map_cons, List.foldl_cons, hm]
      rw [List.filter_cons, List.filter_cons] at *
      simp only [decide_eq_true_eq] at *
      rw [if_neg hxm]
      exact h
    · rw [if_neg hc] at h
      have hmax : max acc.2 x.2 = x.2 := max_eq_right (not_lt.1 hc)
      simp only [maxBySim, if_neg hc, List.map_cons, List.foldl_cons, hmax]
      by_cases ha : acc.2 = (xs.map Prod.snd).foldl max x.2
      · have hx2 : x.2 = (xs.map Prod.snd).foldl max x.2 :=
          le_antisymm (le_foldl_max _ _) (ha ▸ not_lt.1 hc)
        rw [List.filter_cons, if_pos (by simpa using ha)]
        rw [List.filter_cons, if_pos (by simpa using hx2)]
        rw [List.getLast?_cons_cons]
        rw [List.filter_cons, if_pos (by simpa using hx2)] at h
        exact h
      · rw [List.filter_cons, if_neg (by simpa using ha)]
        exact h

/-- A chain of properly-ordered, non-empty child spans covers at least one
position per child: the whole span is at least as long as the child count. -/
lemma Error.chain_span (l : List Error) :
    l.Chain' (fun x y => x.range.2 ≤ y.range.1) →
    (∀ e ∈ l, e.range.1 + 1 ≤ e.range.2) →
    ∀ a b, l.head? = some a → l.getLast? = some b →
    a.range.1 + l.length ≤ b.range.2 := by
  induction l with
  | nil =>
    intro _ _ a b ha
    simp at ha
  | cons e l ih =>
    intro hchain hproper a b ha hb
    rw [List.head?_cons, Option.some_inj] at ha
    subst ha
    cases l with
    | nil =>
      rw [List.getLast?_singleton, Option.some_inj] at hb
      subst hb
      simpa using hproper _ (by simp)
    | cons e2 l2 =>
      have hch := List.chain'_cons.1 hchain
      rw [List.getLast?_cons_cons] at hb
      have ihh := ih hch.2 (fun x hx => hproper x (by simp [hx])) e2 b (by simp) hb
      have hp := hproper e (by simp)
      have h1 : e.range.2 ≤ e2.range.1 := hch.1
      simp only [List.length_cons] at *
      omega

/-- Under well-formedness, similarity lies in `[0,1]` and every range is a
non-empty span. -/
lemma Error.WF.bounds {e : Error} (h : e.WF) :
    0 ≤ e.similarity ∧ e.similarity ≤ 1 ∧ e.range.1 + 1 ≤ e.range.2 := by
  induction h with
  | single h0 h1 =>
    refine ⟨?_, ?_, ?_⟩ <;> simp [h0, h1]
  | succeed hab =>
    exact ⟨by simp, by simp, by simpa using hab⟩
  | @add l hne hwf hchain ih =>
    have hproper : ∀ e ∈ l, e.range.1 + 1 ≤ e.range.2 := fun e he => (ih e he).2.2
    have hspan := Error.chain_span l hchain hproper (l.head hne) (l.getLast hne)
      (List.head?_eq_head hne) (List.getLast?_eq_getLast _ hne)
    have hr := Error.range_add l hne
    have hlen : 1 ≤ l.length := by
      cases l with
      | nil => exact absurd rfl hne
      | cons a as => simp
    have hrange : (Error.Add l).range.1 + 1 ≤ (Error.Add l).range.2 := by
      rw [hr]
      dsimp only
      omega
    have hDn : l.length ≤ (Error.Add l).range.2 - (Error.Add l).range.1 := by
      rw [hr]
      dsimp only
      omega
    have hS0 : 0 ≤ (l.map Error.similarity).sum := by
      refine List.sum_nonneg ?_
      intro q hq
      obtain ⟨e, he, rfl⟩ := List.mem_map.1 hq
      exact (ih e he).1
    have hS1 : (l.map Error.similarity).sum ≤ (l.length : ℚ) := by
      have hb := List.sum_le_card_nsmul (l.map Error.similarity) 1 (by
        intro q hq
        obtain ⟨e, he, rfl⟩ := List.mem_map.1 hq
        exact (ih e he).2.1)
      simpa [nsmul_eq_mul] using hb
    have hD0 : (0 : ℚ) < (((Error.Add l).range.2 - (Error.Add l).range.1 : Nat) : ℚ) := by
      have h1 : 1 ≤ (Error.Add l).range.2 - (Error.Add l).range.1 := le_trans hlen hDn
      exact_mod_cast Nat.lt_of_lt_of_le Nat.zero_lt_one h1
    have hs := Error.similarity_add l
    refine ⟨?_, ?_, hrange⟩
    · rw [hs]
      exact div_nonneg hS0 hD0.le
    · rw [hs, div_le_one hD0]
      calc (l.map Error.similarity).sum ≤ (l.length : ℚ) := hS1
        _ ≤ _ := by exact_mod_cast hDn
  | @or l hne hwf ih =>
    obtain ⟨x, xs, rfl⟩ := List.exists_cons_of_ne_nil hne
    have h0 : 0 ≤ (Error.Or (x :: xs)).similarity := by
      rw [Error.similarity_or]
      exact le_trans (ih x (by simp)).1 (le_foldl_max _ _)
    have h1 : (Error.Or (x :: xs)).similarity ≤ 1 := by
      rw [Error.similarity_or]
      refine foldl_max_le _ _ (ih x (by simp)).2.1 ?_
      intro q hq
      obtain ⟨e, he, rfl⟩ := List.mem_map.1 hq
      exact (ih e (by simp [he])).2.1
    have hmem : maxBySim x.eval (xs.map Error.eval) ∈ (x :: xs).map Error.eval := by
      simpa using maxBySim_mem x.eval (xs.map Error.eval)
    obtain ⟨e, he, heq⟩ := List.mem_map.1 hmem
    have hrange : (Error.Or (x :: xs)).range.1 + 1 ≤ (Error.Or (x :: xs)).range.2 := by
      rw [Error.range_or, ← heq]
      exact (ih e he).2.2
    exact ⟨h0, h1, hrange⟩
  | hinted hw ih => simpa using ih

/-- The sequential combination always produces the `Add` of the flattened
top-level operand lists. -/
lemma Error.add_eq (a b : Error) : a.add b = .Add (a.toAddList ++ b.toAddList) := by
  cases a <;> cases b <;> rfl

/-- The alternative combination always produces the `Or` of the flattened
top-level operand lists. -/
lemma Error.or_eq (a b : Error) : a.or b = .Or (a.toOrList ++ b.toOrList) := by
  cases a <;> cases b <;> rfl

lemma Error.toAddList_add (a b : Error) :
    (a.add b).toAddList = a.toAddList ++ b.toAddList := by
  rw [Error.add_eq]
  rfl

lemma Error.toOrList_or (a b : Error) :
    (a.or b).toOrList = a.toOrList ++ b.toOrList := by
  rw [Error.or_eq]
  rfl

/-- C2: amended — for every `Alternative` with a non-empty child list,
`range()` equals the `range()` of a child with the highest `similarity()`,
and when several children are tied at the maximal similarity it is the
*last* such child in construction/iteration order whose range is returned
(Rust's `max_by` keeps the last of equally-maximal elements), not the
first. -/
theorem or_range_reports_last_maximal_child (x : Error) (xs : List Error) :
    ∃ e, lastMaxChild (x :: xs) = some e ∧ e ∈ x :: xs ∧
      e.similarity = maxSimOf (x :: xs) ∧ (Error.Or (x :: xs)).range = e.range := by
  have key := maxBySim_eq_getLast_filter x.eval (xs.map Error.eval)
  rw [List.map_map] at key
  replace key : (((x :: xs).map Error.eval).filter
      (fun y => y.2 = maxSimOf (x :: xs))).getLast? =
      some (maxBySim x.eval (xs.map Error.eval)) := key
  rw [List.filter_map, List.getLast?_map] at key
  obtain ⟨e, he1, he2⟩ := Option.map_eq_some'.1 key
  have hlast : lastMaxChild (x :: xs) = some e := he1
  have hmem' := List.mem_of_mem_getLast? he1
  have hmem := (List.mem_filter.1 hmem').1
  have hsim : e.similarity = maxSimOf (x :: xs) := by
    have hp := (List.mem_filter.1 hmem').2
    simpa using hp
  refine ⟨e, hlast, hmem, hsim, ?_⟩
  rw [Error.range_or, ← he2]
  rfl

lemma Pool.remove_not_found (p : Pool) (a : Nat) :
    (Pool.remove p a).1 = none ↔ a ∉ Pool.teardown p := by
  simp only [Pool.remove, Pool.teardown, Option.map_eq_none', List.find?_eq_none,
    decide_eq_true_eq, List.mem_map, not_exists]
  tauto

lemma Pool.remove_found (p : Pool) (a : Nat) (h : a ∈ Pool.teardown p) :
    ∃ d, (Pool.remove p a).1 = some d ∧ a ∉ Pool.teardown (Pool.remove p a).2 := by
  obtain ⟨x, hx, hxa⟩ := List.mem_map.1 h
  have hf : (p.find? (fun x => x.1 = a)).isSome := by
    rw [List.find?_isSome]
    exact ⟨x, hx, by simp [hxa]⟩
  obtain ⟨y, hy⟩ := Option.isSome_iff_exists.1 hf
  refine ⟨y.2, ?_, ?_⟩
  · simp [Pool.remove, hy]
  · simp [Pool.remove, Pool.teardown, List.mem_map, List.mem_filter]

lemma runOps_append (p : Pool) (l1 l2 : List Op) :
    runOps p (l1 ++ l2) = runOps (runOps p l1) l2 := by
  induction l1 generalizing p with
  | nil => rfl
  | cons op ops ih =>
    cases op with
    | acquire a d => simpa [runOps] using ih (Pool.add p a d)
    | release a => simpa [runOps] using ih (Pool.remove p a).2

lemma runOps_teardown_nodup (ops : List Op) (p : Pool) (h : (Pool.teardown p).Nodup) :
    (Pool.teardown (runOps p ops)).Nodup := by
  induction ops generalizing p with
  | nil => exact h
  | cons op ops ih =>
    have hsub : ∀ a : Nat,
        (Pool.teardown (p.filter (fun x => x.1 ≠ a))).Nodup := by
      intro a
      exact List.Nodup.sublist
        (List.Sublist.map Prod.fst (List.filter_sublist p)) h
    cases op with
    | acquire a d =>
      refine ih _ ?_
      simp only [runOps, Pool.add, Pool.teardown, List.map_cons]
      rw [List.nodup_cons]
      refine ⟨?_, hsub a⟩
      simp [List.mem_map, List.mem_filter]
    | release a =>
      exact ih _ (hsub a)

lemma runOps_keeps_live (ops : List Op) (p : Pool) (a : Nat)
    (ha : a ∈ Pool.teardown p) (hrel : Op.release a ∉ ops) :
    a ∈ Pool.teardown (runOps p ops) := by
  induction ops generalizing p with
  | nil => exact ha
  | cons op ops ih =>
    have hrel' : Op.release a ∉ ops := fun h => hrel (by simp [h])
    cases op with
    | acquire b d =>
      refine ih _ ?_ hrel'
      by_cases hb : b = a
      · subst hb
        simp [Pool.add, Pool.teardown]
      · obtain ⟨x, hx, hxa⟩ := List.mem_map.1 ha
        refine List.mem_map.2 ⟨x, ?_, hxa⟩
        refine List.mem_cons.2 (.inr (List.mem_filter.2 ⟨hx, ?_⟩))
        simp [hxa]
        exact fun hc => hb hc.symm
    | release b =>
      have hb : b ≠ a := fun h => hrel (by simp [h])
      refine ih _ ?_ hrel'
      obtain ⟨x, hx, hxa⟩ := List.mem_map.1 ha
      refine List.mem_map.2 ⟨x, List.mem_filter.2 ⟨hx, ?_⟩, hxa⟩
      simp [hxa]
      exact hb.symm

lemma runOps_keeps_dead (ops : List Op) (p : Pool) (a : Nat)
    (ha : a ∉ Pool.teardown p) (hacq : ∀ d, Op.acquire a d ∉ ops) :
    a ∉ Pool.teardown (runOps p ops) := by
  induction ops generalizing p with
  | nil => exact ha
  | cons op ops ih =>
    have hacq' : ∀ d, Op.acquire a d ∉ ops := fun d h => hacq d (by simp [h])
    cases op with
    | acquire b d =>
      have hb : b ≠ a := fun h => hacq d (by simp [h])
      refine ih _ ?_ hacq'
      intro hmem
      simp only [Pool.add, Pool.teardown, List.map_cons, List.mem_cons] at hmem
      rcases hmem with h | h
      · exact hb h.symm
      · obtain ⟨x, hx, hxa⟩ := List.mem_map.1 h
        exact ha (List.mem_map.2 ⟨x, (List.mem_filter.1 hx).1, hxa⟩)
    | release b =>
      refine ih _ ?_ hacq'
      intro hmem
      obtain ⟨x, hx, hxa⟩ := List.mem_map.1 hmem
      exact ha (List.mem_map.2 ⟨x, (List.mem_filter.1 hx).1, hxa⟩)

lemma runOps_acquired_destroyed (p : Pool) (l1 l2 : List Op) (a d : Nat)
    (hrel : Op.release a ∉ l2) :
    a ∈ Pool.teardown (runOps p (l1 ++ Op.acquire a d :: l2)) := by
  rw [runOps_append]
  simp only [runOps]
  refine runOps_keeps_live l2 _ a ?_ hrel
  simp [Pool.add, Pool.teardown]

lemma runOps_released_not_destroyed (p : Pool) (l1 l2 : List Op) (a : Nat)
    (hacq : ∀ d, Op.acquire a d ∉ l2) :
    a ∉ Pool.teardown (runOps p (l1 ++ Op.release a :: l2)) := by
  rw [runOps_append]
  simp only [runOps]
  refine runOps_keeps_dead l2 _ a ?_ hacq
  simp [Pool.remove, Pool.teardown, List.mem_map, List.mem_filter]

/-- C1: counterexample — an `Add` whose `Single` children both carry the
score 1 (a value inside `[0,1]`) at the same position 5 has similarity 2,
outside `[0,1]`: the sum of the children's scores (2) is divided by the
total span length (1). -/
theorem similarity_above_one_counterexample :
    (0 : ℚ) ≤ 1 ∧ (1 : ℚ) ≤ 1 ∧
    (Error.Add [.Single 1 5, .Single 1 5]).similarity = 2 ∧
    ¬ (Error.Add [.Single 1 5, .Single 1 5]).similarity ≤ 1 := by
  have h : (Error.Add [.Single 1 5, .Single 1 5]).similarity = 2 := by
    simp [Error.similarity, Error.eval, Error.evalList]
    norm_num
  refine ⟨by decide, by decide, h, ?_⟩
  rw [h]
  decide

/-- C1: amended — `similarity()` computes exactly the spec's formulas: for a
`Sequence` the sum of the children's scores divided by the total span length
of the whole sequence error, for an `Alternative` the maximum child score,
and for a `Recorded-success` exactly 1; the result lies in `[0,1]` for every
well-formed error (`Single` scores in `[0,1]`, non-empty spans and child
lists, `Sequence` children ordered with non-overlapping spans) — but not for
arbitrary errors whose `Single` children score in `[0,1]`. -/
theorem similarity_formulas_and_bounds :
    (∀ l : List Error, (Error.Add l).similarity =
      (l.map Error.similarity).sum /
        (((Error.Add l).range.2 - (Error.Add l).range.1 : Nat) : ℚ)) ∧
    (∀ (x : Error) (xs : List Error), (Error.Or (x :: xs)).similarity =
      (xs.map Error.similarity).foldl max x.similarity) ∧
    (∀ a b : Nat, (Error.Succeed a b).similarity = 1) ∧
    (∀ e : Error, e.WF → 0 ≤ e.similarity ∧ e.similarity ≤ 1) :=
  ⟨Error.similarity_add, Error.similarity_or, fun _ _ => rfl,
    fun _ h => ⟨h.bounds.1, h.bounds.2.1⟩⟩

/-- C1: witness — the amended bound applied to a concrete well-formed
two-child sequence error. -/
theorem similarity_formulas_and_bounds_witness :
    0 ≤ (Error.Add [.Single 0 0, .Single 1 1]).similarity ∧
      (Error.Add [.Single 0 0, .Single 1 1]).similarity ≤ 1 :=
  similarity_formulas_and_bounds.2.2.2 _
    (Error.WF.add (List.cons_ne_nil _ _)
      (by
        intro e he
        simp at he
        rcases he with rfl | rfl
        · exact Error.WF.single (by decide) (by decide)
        · exact Error.WF.single (by decide) (by decide))
      (by simp))

/-- C2: counterexample — two children tied at similarity 1; the claim says
the first such child's range `(0, 1)` is returned, but the code returns the
last one's range `(5, 6)`. -/
theorem or_range_tie_counterexample :
    (Error.Single 1 0).similarity = (Error.Single 1 5).similarity ∧
    (Error.Or [.Single 1 0, .Single 1 5]).range = (5, 6) ∧
    (Error.Single 1 0).range = (0, 1) ∧ ((5, 6) : Nat × Nat) ≠ (0, 1) :=
  ⟨rfl, rfl, rfl, by decide⟩

/-- C3: counterexample — at a start offset equal to the view's length,
`single` reads the out-of-range index (`Set::get` is `&self[idx]`, which
panics, modelled as `none`) instead of returning an `Error` or a value. -/
theorem single_out_of_range_counterexample :
    Set.get ([] : List Char) 0 = none ∧
    ParserContext.single 'a' ([] : List Char) 0 = none :=
  ⟨rfl, rfl⟩

/-- C3: amended — for a start offset below the view's length `single`
returns a value or an `Error`, having read only the in-range index `start`;
for a start offset at or past the length it performs the out-of-range
access (a panic) and returns neither. -/
theorem single_bounds {α : Type} (inst : DecidableEq α) (v : α) (input : List α)
    (start : Nat) :
    (start < input.length → ∃ r, @ParserContext.single α inst v input start = some r) ∧
    (input.length ≤ start → @ParserContext.single α inst v input start = none) := by
  constructor
  · intro h
    have hx : input[start]? = some input[start] := List.getElem?_eq_getElem h
    by_cases hv : v = input[start]
    · exact ⟨.ok (v, start + 1), by simp [ParserContext.single, Set.get, hx, hv]⟩
    · exact ⟨.error (.Single 1 start), by simp [ParserContext.single, Set.get, hx, hv]⟩
  · intro h
    have hx : input[start]? = none := by
      rw [List.getElem?_eq_none_iff]
      exact h
    simp [ParserContext.single, Set.get, hx]

/-- C3: witness — in range the combinator answers, out of range it
panics. -/
theorem single_bounds_witness :
    (∃ r, ParserContext.single 'a' ['a'] 0 = some r) ∧
      ParserContext.single 'a' ['a'] 1 = none :=
  ⟨(single_bounds _ 'a' ['a'] 0).1 (by decide), (single_bounds _ 'a' ['a'] 1).2 (by decide)⟩

/-- C4: counterexample — `p1` fails, but the speculative run of `p2` from
`resume = e1.range().end` performs an out-of-range access, so the sequence
panics (`none`) instead of returning an `Error`: the speculative
continuation can change the overall failure outcome. -/
theorem addPP_speculation_panic_counterexample :
    ParserContext.single 'a' ['x'] 0 = some (.error (.Single 1 0)) ∧
    AddPP.parse (ParserContext.single 'a') (ParserContext.single 'b') ['x'] 0 = none :=
  ⟨rfl, rfl⟩

/-- C4: amended — when `p1` fails with `e1` the sequence never succeeds; if
the speculative run of `p2` from `resume = e1.range().end` returns normally,
the result is exactly `Err(e1 + Succeed(resume..p2_end))` on `p2` success
and `Err(e1 + e2)` on `p2` failure; but if the speculative run panics
(out-of-range access) the panic propagates and no `Error` is returned. -/
theorem addPP_failure_speculation {α O1 O2 : Type} (p1 : RawParser α O1)
    (p2 : RawParser α O2) (input : List α) (start : Nat) (e1 : Error)
    (h1 : p1 input start = some (.error e1)) :
    (∀ r, AddPP.parse p1 p2 input start ≠ some (.ok r)) ∧
    (∀ v e, p2 input e1.range.2 = some (.ok (v, e)) →
      AddPP.parse p1 p2 input start =
        some (.error (e1.add (.Succeed e1.range.2 e)))) ∧
    (∀ e2, p2 input e1.range.2 = some (.error e2) →
      AddPP.parse p1 p2 input start = some (.error (e1.add e2))) ∧
    (p2 input e1.range.2 = none → AddPP.parse p1 p2 input start = none) := by
  refine ⟨?_, ?_, ?_, ?_⟩
  · intro r hr
    rcases hp2 : p2 input e1.range.2 with _ | r2
    · simp [AddPP.parse, h1, hp2] at hr
    · rcases r2 with e2 | ⟨v2, end2⟩
      · simp [AddPP.parse, h1, hp2] at hr
      · simp [AddPP.parse, h1, hp2] at hr
  · intro v e h2
    simp [AddPP.parse, h1, h2]
  · intro e2 h2
    simp [AddPP.parse, h1, h2]
  · intro h2
    simp [AddPP.parse, h1, h2]

/-- C4: witness — `p1` fails on a one-token mismatch and the speculative run
of `p2` succeeds from the failure span's end, enriching the error with a
`Succeed` record. -/
theorem addPP_failure_speculation_witness :
    AddPP.parse (ParserContext.single 'a') (ParserContext.single 'b') ['x', 'b'] 0 =
      some (.error ((Error.Single 1 0).add (.Succeed 1 2))) :=
  (addPP_failure_speculation (ParserContext.single 'a') (ParserContext.single 'b')
    ['x', 'b'] 0 (.Single 1 0) rfl).2.1 'b' 2 rfl

/-- C5: when `p1` succeeds ending at `end1` and `p2` then fails from `end1`
with `e2`, the sequence returns `Err(Succeed(start..end1) + e2)`, and that
error's range starts at `p1`'s start offset. -/
theorem addPP_success_then_failure {α O1 O2 : Type} (p1 : RawParser α O1)
    (p2 : RawParser α O2) (input : List α) (start : Nat) (v : O1) (end1 : Nat)
    (e2 : Error) (h1 : p1 input start = some (.ok (v, end1)))
    (h2 : p2 input end1 = some (.error e2)) :
    AddPP.parse p1 p2 input start =
      some (.error ((Error.Succeed start end1).add e2)) ∧
    ((Error.Succeed start end1).add e2).range.1 = start := by
  refine ⟨by simp [AddPP.parse, h1, h2], ?_⟩
  rw [Error.add_eq]
  rw [show (Error.Succeed start end1).toAddList ++ e2.toAddList =
    Error.Succeed start end1 :: e2.toAddList from rfl]
  rw [Error.range_add _ (List.cons_ne_nil _ _)]
  simp

/-- C5: witness — `'a'` matches, `'b'` mismatches at offset 1; the combined
error starts at offset 0. -/
theorem addPP_success_then_failure_witness :
    AddPP.parse (ParserContext.single 'a') (ParserContext.single 'b') ['a', 'c'] 0 =
      some (.error ((Error.Succeed 0 1).add (.Single 1 1))) ∧
    ((Error.Succeed 0 1).add (.Single 1 1)).range.1 = 0 :=
  addPP_success_then_failure (ParserContext.single 'a') (ParserContext.single 'b')
    ['a', 'c'] 0 'a' 1 (.Single 1 1) rfl rfl

/-- C6: both combination operators are associative and produce the same flat
operand list, and neither ever directly nests a node of its own kind when
the operands do not. -/
theorem error_combination_flat_assoc :
    (∀ a b c : Error, (a.add b).add c = a.add (b.add c)) ∧
    (∀ a b c : Error, (a.or b).or c = a.or (b.or c)) ∧
    (∀ a b : Error, (a.add b).toAddList = a.toAddList ++ b.toAddList) ∧
    (∀ a b : Error, (a.or b).toOrList = a.toOrList ++ b.toOrList) ∧
    (∀ a b : Error, (∀ e ∈ a.toAddList, ¬ e.isAdd) → (∀ e ∈ b.toAddList, ¬ e.isAdd) →
      ∀ e ∈ (a.add b).toAddList, ¬ e.isAdd) ∧
    (∀ a b : Error, (∀ e ∈ a.toOrList, ¬ e.isOr) → (∀ e ∈ b.toOrList, ¬ e.isOr) →
      ∀ e ∈ (a.or b).toOrList, ¬ e.isOr) := by
  refine ⟨?_, ?_, Error.toAddList_add, Error.toOrList_or, ?_, ?_⟩
  · intro a b c
    rw [Error.add_eq (a.add b) c, Error.toAddList_add, Error.add_eq a (b.add c),
      Error.toAddList_add, List.append_assoc]
  · intro a b c
    rw [Error.or_eq (a.or b) c, Error.toOrList_or, Error.or_eq a (b.or c),
      Error.toOrList_or, List.append_assoc]
  · intro a b ha hb e he
    rw [Error.toAddList_add] at he
    rcases List.mem_append.1 he with h | h
    · exact ha e h
    · exact hb e h
  · intro a b ha hb e he
    rw [Error.toOrList_or] at he
    rcases List.mem_append.1 he with h | h
    · exact ha e h
    · exact hb e h

/-- C6: witness — the flatness clause applied to two concrete `Single`
operands. -/
theorem error_combination_flat_assoc_witness :
    ¬ (Error.Single 1 0).isAdd :=
  error_combination_flat_assoc.2.2.2.2.1 (.Single 1 0) (.Single 1 1)
    (by simp [Error.toAddList, Error.isAdd]) (by simp [Error.toAddList, Error.isAdd])
    (.Single 1 0) (by simp [Error.add, Error.toAddList])

/-- C7: the alternative is left-biased — `p1`'s success always wins; on `p1`
failure, `p2` runs from the same start offset and its success is returned;
when both fail the errors combine with `Combine-as-alternatives`. -/
theorem or_parse_spec {α O : Type} (p1 p2 : RawParser α O) (input : List α)
    (start : Nat) :
    (∀ r, p1 input start = some (.ok r) → Or.parse p1 p2 input start = some (.ok r)) ∧
    (∀ e1 r, p1 input start = some (.error e1) → p2 input start = some (.ok r) →
      Or.parse p1 p2 input start = some (.ok r)) ∧
    (∀ e1 e2, p1 input start = some (.error e1) → p2 input start = some (.error e2) →
      Or.parse p1 p2 input start = some (.error (e1.or e2))) := by
  refine ⟨?_, ?_, ?_⟩
  · intro r h
    simp [Or.parse, h]
  · intro e1 r h1 h2
    simp [Or.parse, h1, h2]
  · intro e1 e2 h1 h2
    simp [Or.parse, h1, h2]

/-- C7: witness — the spec's scenario: `alternative(literal('x'),
literal('a'))` over `"a"` succeeds through the second branch with
`('a', 1)`. -/
theorem or_parse_spec_witness :
    Or.parse (ParserContext.single 'x') (ParserContext.single 'a') ['a'] 0 =
      some (.ok ('a', 1)) :=
  (or_parse_spec (ParserContext.single 'x') (ParserContext.single 'a') ['a'] 0).2.1
    (.Single 1 0) ('a', 1) rfl rfl

/-- C8: the arena registry — releasing an unregistered reference reports
not-found; releasing a registered one removes its entry and returns
ownership; teardown destroys each registered key exactly once (never
twice); a key acquired and not released afterwards is destroyed at
teardown; a key released and not re-acquired afterwards is not. -/
theorem pool_registry_spec :
    (∀ (p : Pool) (a : Nat), (Pool.remove p a).1 = none ↔ a ∉ Pool.teardown p) ∧
    (∀ (p : Pool) (a : Nat), a ∈ Pool.teardown p →
      ∃ d, (Pool.remove p a).1 = some d ∧ a ∉ Pool.teardown (Pool.remove p a).2) ∧
    (∀ ops : List Op, (Pool.teardown (runOps [] ops)).Nodup) ∧
    (∀ (l1 l2 : List Op) (a d : Nat), Op.release a ∉ l2 →
      a ∈ Pool.teardown (runOps [] (l1 ++ Op.acquire a d :: l2))) ∧
    (∀ (l1 l2 : List Op) (a : Nat), (∀ d, Op.acquire a d ∉ l2) →
      a ∉ Pool.teardown (runOps [] (l1 ++ Op.release a :: l2))) :=
  ⟨Pool.remove_not_found, Pool.remove_found,
    fun ops => runOps_teardown_nodup ops [] (by simp [Pool.teardown]),
    fun l1 l2 a d h => runOps_acquired_destroyed [] l1 l2 a d h,
    fun l1 l2 a h => runOps_released_not_destroyed [] l1 l2 a h⟩

/-- C8: witness — an object acquired and never released survives unrelated
operations and is present at teardown. -/
theorem pool_registry_spec_witness :
    1 ∈ Pool.teardown (runOps [] ([Op.acquire 2 0] ++ Op.acquire 1 0 :: [Op.release 2])) :=
  pool_registry_spec.2.2.2.1 [Op.acquire 2 0] [Op.release 2] 1 0 (by decide)

/-- C9: the parsing contract — on success the new offset is at least the
start offset — holds for `single` and is preserved by map, discard,
sequence and alternative when the sub-parsers satisfy it. -/
theorem combinators_progress :
    (∀ (α : Type) (inst : DecidableEq α) (v : α),
      Progresses (@ParserContext.single α inst v)) ∧
    (∀ (α O T : Type) (p : RawParser α O) (f : O → T),
      Progresses p → Progresses (Parser.map p f)) ∧
    (∀ (α O : Type) (p : RawParser α O),
      Progresses p → Progresses (Discard.parse p)) ∧
    (∀ (α O1 O2 : Type) (p1 : RawParser α O1) (p2 : RawParser α O2),
      Progresses p1 → Progresses p2 → Progresses (AddPP.parse p1 p2)) ∧
    (∀ (α O : Type) (p1 p2 : RawParser α O),
      Progresses p1 → Progresses p2 → Progresses (Or.parse p1 p2)) := by
  refine ⟨?_, ?_, ?_, ?_, ?_⟩
  · intro α inst v input start v' e h
    unfold ParserContext.single Set.get at h
    revert h
    rcases input[start]? with _ | x <;> intro h
    · exact absurd h (by simp)
    · dsimp only at h
      by_cases hv : v = x
      · rw [if_pos hv] at h
        simp only [Option.some_inj, Except.ok.injEq, Prod.mk.injEq] at h
        omega
      · rw [if_neg hv] at h
        exact absurd h (by simp)
  · intro α O T p f hp input start v e h
    simp only [Parser.map, Option.map_eq_some'] at h
    obtain ⟨r, hr, hmap⟩ := h
    rcases r with e' | ⟨a, b⟩
    · simp [Except.map] at hmap
    · simp only [Except.map, Except.ok.injEq, Prod.mk.injEq] at hmap
      obtain ⟨-, rfl⟩ := hmap
      exact hp input start a b hr
  · intro α O p hp input start v e h
    simp only [Discard.parse, Option.map_eq_some'] at h
    obtain ⟨r, hr, hmap⟩ := h
    rcases r with e' | ⟨a, b⟩
    · simp [Except.map] at hmap
    · simp only [Except.map, Except.ok.injEq, Prod.mk.injEq] at hmap
      obtain ⟨-, rfl⟩ := hmap
      exact hp input start a b hr
  · intro α O1 O2 p1 p2 h1 h2 input start v e h
    rcases hp1 : p1 input start with _ | r1
    · simp [AddPP.parse, hp1] at h
    · rcases r1 with e1 | ⟨v1, end1⟩
      · rcases hp2 : p2 input e1.range.2 with _ | r2
        · simp [AddPP.parse, hp1, hp2] at h
        · rcases r2 with e2 | ⟨v2, end2⟩
          · simp [AddPP.parse, hp1, hp2] at h
          · simp [AddPP.parse, hp1, hp2] at h
      · rcases hp2 : p2 input end1 with _ | r2
        · simp [AddPP.parse, hp1, hp2] at h
        · rcases r2 with e2 | ⟨v2, end2⟩
          · simp [AddPP.parse, hp1, hp2] at h
          · simp only [AddPP.parse, hp1, hp2, Option.some_inj, Except.ok.injEq,
              Prod.mk.injEq] at h
            obtain ⟨-, rfl⟩ := h
            exact le_trans (h1 input start v1 end1 hp1) (h2 input end1 v2 end2 hp2)
  · intro α O p1 p2 h1 h2 input start v e h
    rcases hp1 : p1 input start with _ | r1
    · simp [Or.parse, hp1] at h
    · rcases r1 with e1 | ⟨v1, end1⟩
      · rcases hp2 : p2 input start with _ | r2
        · simp [Or.parse, hp1, hp2] at h
        · rcases r2 with e2 | ⟨v2, end2⟩
          · simp [Or.parse, hp1, hp2] at h
          · simp only [Or.parse, hp1, hp2, Option.some_inj, Except.ok.injEq,
              Prod.mk.injEq] at h
            exact le_of_le_of_eq (h2 input start v2 end2 hp2) h.2
      · simp only [Or.parse, hp1, Option.some_inj, Except.ok.injEq, Prod.mk.injEq] at h
        exact le_of_le_of_eq (h1 input start v1 end1 hp1) h.2

/-- C9: witness — the sequence of two progressing literals progresses on a
concrete successful parse. -/
theorem combinators_progress_witness : (0 : Nat) ≤ 2 :=
  combinators_progress.2.2.2.1 Char Char Char (ParserContext.single 'a')
    (ParserContext.single 'b') (combinators_progress.1 Char _ 'a')
    (combinators_progress.1 Char _ 'b') ['a', 'b'] 0 ('a', 'b') 2 rfl

/-- C10: `Parser::parse` always invokes the raw parser at start offset 0,
returns only the parsed value on success (discarding the final offset), and
performs no end-of-input check: consuming a proper prefix still succeeds. -/
theorem parser_parse_spec :
    (∀ (α O : Type) (p : RawParser α O) (input : List α),
      Parser.parse p input = (p input 0).map (fun r => r.map Prod.fst)) ∧
    (∀ (α O : Type) (p : RawParser α O) (input : List α) (v : O) (e : Nat),
      p input 0 = some (.ok (v, e)) → Parser.parse p input = some (.ok v)) ∧
    (ParserContext.single 'a' ['a', 'b'] 0 = some (.ok ('a', 1)) ∧
      1 < (['a', 'b'] : List Char).length ∧
      Parser.parse (ParserContext.single 'a') ['a', 'b'] = some (.ok 'a')) := by
  refine ⟨fun α O p input => rfl, ?_, rfl, by decide, rfl⟩
  intro α O p input v e h
  simp [Parser.parse, h, Except.map]

/-- C10: witness — a parse consuming only the first of two elements still
succeeds, returning just the value. -/
theorem parser_parse_spec_witness :
    Parser.parse (ParserContext.single 'a') ['a', 'b'] = some (.ok 'a') :=
  parser_parse_spec.2.1 Char Char (ParserContext.single 'a') ['a', 'b'] 'a' 1 rfl

end Parsers
